import Mathlib

/-
  Verification development for the rollinglog package (a rotating log
  writer).  The Go source is shallowly embedded: strings are modelled as
  List Char (Go slices bytes; all names involved are ASCII so the two
  views agree), machine integers as Nat (with Go int arithmetic done in
  Int where the source compares possibly-negative quantities), and
  fallible operations return Option or carry explicit success oracles.
-/

set_option maxHeartbeats 1000000

namespace RollingLog

/- ### Decimal digits and fixed-width numerals

   rotate() formats the rotation time with the fixed-width Go layout
   "20060102150405.000" (4-digit year, then 2-digit month, day, hour,
   minute, second, a dot, and 3 millisecond digits, all zero padded);
   time.Parse reads the same layout back.  We model the decimal
   formatting of one zero-padded field and its parse. -/

def digitChar : Nat → Char
  | 0 => '0' | 1 => '1' | 2 => '2' | 3 => '3' | 4 => '4'
  | 5 => '5' | 6 => '6' | 7 => '7' | 8 => '8' | _ => '9'

def digitVal (c : Char) : Nat := c.toNat - 48

def isDigitCh (c : Char) : Bool := 48 ≤ c.toNat && c.toNat ≤ 57

/-- Fixed-width, zero-padded decimal numeral of n (most significant first). -/
def padNum : Nat → Nat → List Char
  | 0, _ => []
  | w + 1, n => padNum w (n / 10) ++ [digitChar (n % 10)]

/-- Read a decimal numeral (what time.Parse does with one numeric field). -/
def readNum (cs : List Char) : Nat := cs.foldl (fun a c => 10 * a + digitVal c) 0

theorem digitVal_digitChar : ∀ n, n < 10 → digitVal (digitChar n) = n := by decide

theorem isDigitCh_digitChar : ∀ n, n < 10 → isDigitCh (digitChar n) = true := by decide

theorem padNum_length : ∀ w n, (padNum w n).length = w := by
  intro w
  induction w with
  | zero => intro n; rfl
  | succ w ih => intro n; simp [padNum, ih]

theorem padNum_digits : ∀ w n, (padNum w n).all isDigitCh = true := by
  intro w
  induction w with
  | zero => intro n; rfl
  | succ w ih =>
    intro n
    simp only [padNum, List.all_append, ih, List.all_cons, List.all_nil,
      Bool.and_true, Bool.true_and]
    exact isDigitCh_digitChar _ (Nat.mod_lt _ (by omega))

theorem readNum_aux : ∀ w n a, n < 10 ^ w →
    (padNum w n).foldl (fun a c => 10 * a + digitVal c) a = a * 10 ^ w + n := by
  intro w
  induction w with
  | zero =>
    intro n a h
    simp [padNum]
    omega
  | succ w ih =>
    intro n a h
    have hdiv : n / 10 < 10 ^ w := by
      rw [Nat.div_lt_iff_lt_mul (by omega)]
      calc n < 10 ^ (w + 1) := h
        _ = 10 ^ w * 10 := by ring
    simp only [padNum, List.foldl_append, ih (n / 10) a hdiv, List.foldl_cons,
      List.foldl_nil]
    rw [digitVal_digitChar _ (Nat.mod_lt _ (by omega))]
    have := Nat.div_add_mod n 10
    calc 10 * (a * 10 ^ w + n / 10) + n % 10
        = a * (10 ^ w * 10) + (10 * (n / 10) + n % 10) := by ring
      _ = a * 10 ^ (w + 1) + n := by rw [Nat.pow_succ]; omega

theorem readNum_padNum {w n : Nat} (h : n < 10 ^ w) : readNum (padNum w n) = n := by
  unfold readNum
  rw [readNum_aux w n 0 h]
  omega

/- ### Timestamps

   Wall-clock instants at millisecond precision, the content of a
   backup file name.  tsKey is an order embedding of valid timestamps
   into Nat used to model comparisons of time.Time values (Before /
   After); for calendar-valid timestamps the lexicographic field order
   coincides with chronological order. -/

structure Timestamp where
  year : Nat
  month : Nat
  day : Nat
  hour : Nat
  minute : Nat
  second : Nat
  millis : Nat
deriving DecidableEq

def isLeap (y : Nat) : Bool := y % 4 = 0 && (y % 100 ≠ 0 || y % 400 = 0)

/-- Number of days of a month, as Go's time package validates a parsed day. -/
def daysIn (y mo : Nat) : Nat :=
  if mo = 2 then (if isLeap y then 29 else 28)
  else if mo = 4 ∨ mo = 6 ∨ mo = 9 ∨ mo = 11 then 30
  else 31

theorem daysIn_le_31 (y mo : Nat) : daysIn y mo ≤ 31 := by
  unfold daysIn
  split
  · split <;> omega
  · split <;> omega

/-- A calendar-valid timestamp whose formatted year keeps the layout's
    4-digit width (what `t.Format` stays faithful to and `time.Parse`
    accepts back). -/
abbrev ValidTs (t : Timestamp) : Prop :=
  t.year ≤ 9999 ∧ 1 ≤ t.month ∧ t.month ≤ 12 ∧ 1 ≤ t.day ∧
    t.day ≤ daysIn t.year t.month ∧ t.hour < 24 ∧ t.minute < 60 ∧
    t.second < 60 ∧ t.millis < 1000

def tsKey (t : Timestamp) : Nat :=
  ((((t.year * 13 + t.month) * 32 + t.day) * 24 + t.hour) * 60 + t.minute) * 60 * 1000 +
    t.second * 1000 + t.millis

/- ### The filename codec

   backupTimeFormat is the constant "20060102150405.000" of the source;
   only its length (the fixed width of an encoded timestamp) matters to
   the decoder. -/

def backupTimeFormat : List Char :=
  ['2', '0', '0', '6', '0', '1', '0', '2', '1', '5', '0', '4', '0', '5', '.', '0', '0', '0']

def compressSuffix : List Char := ['.', 'g', 'z']

/-- t.Format(backupTimeFormat): the fixed-width encoded timestamp. -/
def formatBackupTime (t : Timestamp) : List Char :=
  padNum 4 t.year ++ padNum 2 t.month ++ padNum 2 t.day ++ padNum 2 t.hour ++
    padNum 2 t.minute ++ padNum 2 t.second ++ '.' :: padNum 3 t.millis

theorem formatBackupTime_length (t : Timestamp) : (formatBackupTime t).length = 18 := by
  simp [formatBackupTime, padNum_length]

/-- time.Parse(backupTimeFormat, ts): positional read of the six numeric
    fields and the millisecond field, with Go's range validation of
    month, day (against the month's length), hour, minute and second. -/
def parseBackupTime (cs : List Char) : Option Timestamp :=
  let y := readNum (cs.take 4)
  let mo := readNum ((cs.drop 4).take 2)
  let d := readNum ((cs.drop 6).take 2)
  let h := readNum ((cs.drop 8).take 2)
  let mi := readNum ((cs.drop 10).take 2)
  let s := readNum ((cs.drop 12).take 2)
  let ms := readNum ((cs.drop 15).take 3)
  if cs.length = 18 ∧ (cs.take 14).all isDigitCh = true ∧ (cs.drop 14).take 1 = ['.'] ∧
      ((cs.drop 15).take 3).all isDigitCh = true ∧ 1 ≤ mo ∧ mo ≤ 12 ∧ 1 ≤ d ∧
      d ≤ daysIn y mo ∧ h < 24 ∧ mi < 60 ∧ s < 60 then
    some ⟨y, mo, d, h, mi, s, ms⟩
  else none

/-- timeFormFilename of the source: check the name starts with aPre, ends
    with aSuf, and the middle has exactly the layout's width (an int
    comparison in Go, hence computed in Int here), then parse it. -/
def timeFormFilename (aFilename aPre aSuf : List Char) : Option Timestamp :=
  if aFilename.take aPre.length = aPre then
    if aFilename.drop (aFilename.length - aSuf.length) = aSuf then
      if (backupTimeFormat.length : Int) =
          (aFilename.length : Int) - (aSuf.length : Int) - (aPre.length : Int) then
        parseBackupTime ((aFilename.drop aPre.length).take
          (aFilename.length - aSuf.length - aPre.length))
      else none
    else none
  else none

theorem parseBackupTime_format (t : Timestamp) (h : ValidTs t) :
    parseBackupTime (formatBackupTime t) = some t := by
  obtain ⟨y, mo, d, hr, mi, s, ms⟩ := t
  obtain ⟨hy, hmo1, hmo2, hd1, hd2, hh, hmi, hs, hms⟩ := h
  dsimp only at hy hmo1 hmo2 hd1 hd2 hh hmi hs hms
  have p4 : (10 : Nat) ^ 4 = 10000 := by norm_num
  have p2 : (10 : Nat) ^ 2 = 100 := by norm_num
  have p3 : (10 : Nat) ^ 3 = 1000 := by norm_num
  have hdle : daysIn y mo ≤ 31 := daysIn_le_31 y mo
  set cs := formatBackupTime ⟨y, mo, d, hr, mi, s, ms⟩ with hcs
  have hlen : cs.length = 18 := formatBackupTime_length _
  have hdrop4 : cs.drop 4 =
      padNum 2 mo ++ (padNum 2 d ++ (padNum 2 hr ++ (padNum 2 mi ++
        (padNum 2 s ++ '.' :: padNum 3 ms)))) := by
    rw [hcs]; exact List.drop_left' (padNum_length 4 y)
  have hdrop6 : cs.drop 6 =
      padNum 2 d ++ (padNum 2 hr ++ (padNum 2 mi ++ (padNum 2 s ++ '.' :: padNum 3 ms))) := by
    have h2 : (cs.drop 4).drop 2 = cs.drop 6 := by rw [List.drop_drop]
    rw [← h2, hdrop4]; exact List.drop_left' (padNum_length 2 mo)
  have hdrop8 : cs.drop 8 =
      padNum 2 hr ++ (padNum 2 mi ++ (padNum 2 s ++ '.' :: padNum 3 ms)) := by
    have h2 : (cs.drop 6).drop 2 = cs.drop 8 := by rw [List.drop_drop]
    rw [← h2, hdrop6]; exact List.drop_left' (padNum_length 2 d)
  have hdrop10 : cs.drop 10 = padNum 2 mi ++ (padNum 2 s ++ '.' :: padNum 3 ms) := by
    have h2 : (cs.drop 8).drop 2 = cs.drop 10 := by rw [List.drop_drop]
    rw [← h2, hdrop8]; exact List.drop_left' (padNum_length 2 hr)
  have hdrop12 : cs.drop 12 = padNum 2 s ++ '.' :: padNum 3 ms := by
    have h2 : (cs.drop 10).drop 2 = cs.drop 12 := by rw [List.drop_drop]
    rw [← h2, hdrop10]; exact List.drop_left' (padNum_length 2 mi)
  have hdrop14 : cs.drop 14 = '.' :: padNum 3 ms := by
    have h2 : (cs.drop 12).drop 2 = cs.drop 14 := by rw [List.drop_drop]
    rw [← h2, hdrop12]; exact List.drop_left' (padNum_length 2 s)
  have hdrop15 : cs.drop 15 = padNum 3 ms := by
    have h2 : (cs.drop 14).drop 1 = cs.drop 15 := by rw [List.drop_drop]
    rw [← h2, hdrop14]; rfl
  have htake4 : cs.take 4 = padNum 4 y := by
    rw [hcs]; exact List.take_left' (padNum_length 4 y)
  have htakef2 : (cs.drop 4).take 2 = padNum 2 mo := by
    rw [hdrop4]; exact List.take_left' (padNum_length 2 mo)
  have htakef3 : (cs.drop 6).take 2 = padNum 2 d := by
    rw [hdrop6]; exact List.take_left' (padNum_length 2 d)
  have htakef4 : (cs.drop 8).take 2 = padNum 2 hr := by
    rw [hdrop8]; exact List.take_left' (padNum_length 2 hr)
  have htakef5 : (cs.drop 10).take 2 = padNum 2 mi := by
    rw [hdrop10]; exact List.take_left' (padNum_length 2 mi)
  have htakef6 : (cs.drop 12).take 2 = padNum 2 s := by
    rw [hdrop12]; exact List.take_left' (padNum_length 2 s)
  have htakedot : (cs.drop 14).take 1 = ['.'] := by rw [hdrop14]; rfl
  have htakems : (cs.drop 15).take 3 = padNum 3 ms := by
    rw [hdrop15]; exact List.take_of_length_le (by rw [padNum_length])
  have hsplit14 : cs = (padNum 4 y ++ (padNum 2 mo ++ (padNum 2 d ++ (padNum 2 hr ++
      (padNum 2 mi ++ padNum 2 s))))) ++ ('.' :: padNum 3 ms) := by
    rw [hcs]; unfold formatBackupTime; simp [List.append_assoc]
  have htake14 : cs.take 14 = padNum 4 y ++ (padNum 2 mo ++ (padNum 2 d ++ (padNum 2 hr ++
      (padNum 2 mi ++ padNum 2 s)))) := by
    rw [hsplit14]; exact List.take_left' (by simp [padNum_length])
  have hdig14 : (cs.take 14).all isDigitCh = true := by
    rw [htake14]; simp [List.all_append, padNum_digits]
  have hdig3 : ((cs.drop 15).take 3).all isDigitCh = true := by
    rw [htakems]; exact padNum_digits 3 ms
  have hry : readNum (cs.take 4) = y := by rw [htake4]; exact readNum_padNum (by omega)
  have hrmo : readNum ((cs.drop 4).take 2) = mo := by
    rw [htakef2]; exact readNum_padNum (by omega)
  have hrd : readNum ((cs.drop 6).take 2) = d := by
    rw [htakef3]; exact readNum_padNum (by omega)
  have hrh : readNum ((cs.drop 8).take 2) = hr := by
    rw [htakef4]; exact readNum_padNum (by omega)
  have hrmi : readNum ((cs.drop 10).take 2) = mi := by
    rw [htakef5]; exact readNum_padNum (by omega)
  have hrs : readNum ((cs.drop 12).take 2) = s := by
    rw [htakef6]; exact readNum_padNum (by omega)
  have hrms : readNum ((cs.drop 15).take 3) = ms := by
    rw [htakems]; exact readNum_padNum (by omega)
  unfold parseBackupTime
  simp only [hry, hrmo, hrd, hrh, hrmi, hrs, hrms]
  rw [if_pos]
  exact ⟨hlen, hdig14, htakedot, hdig3, hmo1, hmo2, hd1, hd2, hh, hmi, hs⟩

/-- C5: decoding the filename obtained by putting the encoded timestamp
    between a prefix and a suffix gives back exactly that timestamp, for
    every prefix, every suffix and every calendar-valid timestamp of
    millisecond precision. -/
theorem timeFormFilename_roundtrip (aPre aSuf : List Char) (t : Timestamp) (h : ValidTs t) :
    timeFormFilename (aPre ++ formatBackupTime t ++ aSuf) aPre aSuf = some t := by
  set cs := aPre ++ formatBackupTime t ++ aSuf with hcs
  have hflen := formatBackupTime_length t
  have hlen : cs.length = aPre.length + 18 + aSuf.length := by
    rw [hcs]; simp [List.length_append, hflen]; omega
  have h1 : cs.take aPre.length = aPre := by
    rw [hcs, List.append_assoc]; exact List.take_left aPre (formatBackupTime t ++ aSuf)
  have h2 : cs.drop (cs.length - aSuf.length) = aSuf := by
    rw [hcs]; apply List.drop_left'
    simp [List.length_append, hflen]; omega
  have h3 : (cs.drop aPre.length).take (cs.length - aSuf.length - aPre.length) =
      formatBackupTime t := by
    have hd : cs.drop aPre.length = formatBackupTime t ++ aSuf := by
      rw [hcs, List.append_assoc]
      exact List.drop_left aPre (formatBackupTime t ++ aSuf)
    have hn : cs.length - aSuf.length - aPre.length = 18 := by omega
    rw [hd, hn]; exact List.take_left' hflen
  have hbl : backupTimeFormat.length = 18 := rfl
  have hint : (backupTimeFormat.length : Int) =
      (cs.length : Int) - (aSuf.length : Int) - (aPre.length : Int) := by
    rw [hbl]; omega
  unfold timeFormFilename
  rw [if_pos h1, if_pos h2, if_pos hint, h3]
  exact parseBackupTime_format t h

/- ### splitFilename and the backup directory scanner

   splitFilename works on the basename of the configured log path (the
   source first strips the directory with filepath.Split; we model the
   basename directly).  fileExt is Go's filepath.Ext: the part of the
   name from the final dot (inclusive), empty when there is no dot. -/

def fileExt (cs : List Char) : List Char :=
  if '.' ∈ cs then '.' :: (cs.reverse.takeWhile (fun c => c != '.')).reverse else []

def splitFilename (fname : List Char) : List Char × List Char :=
  let suf := fileExt fname
  (fname.take (fname.length - suf.length) ++ ['.'], suf)

/-- A directory entry as seen by ioutil.ReadDir: a name and whether it is
    a directory. -/
structure DirEntry where
  name : List Char
  isDir : Bool
deriving DecidableEq

structure BackupInfo where
  name : List Char
  timestamp : Timestamp
deriving DecidableEq

/-- The filtering loop of filterBackups: every non-directory entry is
    decoded against the plain suffix first and the compressed suffix
    second; entries matching neither are skipped.  This is the list the
    source then hands to sort.Sort, in discovery order. -/
def scanCandidates (aPre aSuf : List Char) : List DirEntry → List BackupInfo
  | [] => []
  | e :: rest =>
    if e.isDir then scanCandidates aPre aSuf rest
    else
      match timeFormFilename e.name aPre aSuf with
      | some ts => ⟨e.name, ts⟩ :: scanCandidates aPre aSuf rest
      | none =>
        match timeFormFilename e.name aPre (aSuf ++ compressSuffix) with
        | some ts => ⟨e.name, ts⟩ :: scanCandidates aPre aSuf rest
        | none => scanCandidates aPre aSuf rest

/-- byTimestamp.Less i j is b[i].timestamp.After(b[j].timestamp); being
    sorted for sort.Sort means no later element is After an earlier one,
    i.e. keys are nonincreasing. -/
def SortedNewestFirst (l : List BackupInfo) : Prop :=
  List.Pairwise (fun a b => tsKey b.timestamp ≤ tsKey a.timestamp) l

/-- The relational semantics of filterBackups on a directory listing:
    sort.Sort guarantees exactly a permutation of its input that is
    sorted for Less (the standard sort is documented as unstable, so no
    more than this is promised). -/
def FilterBackupsRes (logBasename : List Char) (entries : List DirEntry)
    (res : List BackupInfo) : Prop :=
  res.Perm (scanCandidates (splitFilename logBasename).1 (splitFilename logBasename).2
    entries) ∧ SortedNewestFirst res

/- ### collectFilesForSweep

   The source pops candidates off the tail (the oldest end) of the
   newest-first backup list; we walk the reversed, oldest-first list
   from its head, which is the same traversal.  Returned names are the
   basenames (the source prepends the constant directory with
   filepath.Join).  The cutoff instant (time.Now minus the age limit in
   days) is taken as a parameter, in key space. -/

def hasSuffixB (s suf : List Char) : Bool :=
  decide (s.drop (s.length - suf.length) = suf)

/-- The age loop: pop and mark backups strictly older than the cutoff,
    stop at the first that is not older. -/
def ageLoop (cutoff : Nat) : List BackupInfo → List (List Char) × List BackupInfo
  | [] => ([], [])
  | b :: rest =>
    if tsKey b.timestamp < cutoff then
      let p := ageLoop cutoff rest
      (b.name :: p.1, p.2)
    else ([], b :: rest)

/-- The count loop: pop and mark the oldest while more than the limit
    remain. -/
def countLoop (limit : Nat) : List BackupInfo → List (List Char) × List BackupInfo
  | [] => ([], [])
  | b :: rest =>
    if limit < rest.length + 1 then
      let p := countLoop limit rest
      (b.name :: p.1, p.2)
    else ([], b :: rest)

def collectFilesForSweep (daysLimit countLimit : Nat) (compressOn : Bool) (cutoff : Nat)
    (backups : List BackupInfo) : List (List Char) × List (List Char) :=
  let oldestFirst := backups.reverse
  let aged := if 0 < daysLimit then ageLoop cutoff oldestFirst else ([], oldestFirst)
  let counted := if 0 < countLimit then countLoop countLimit aged.2 else ([], aged.2)
  let forCompress :=
    if compressOn then
      ((counted.2.reverse.filter (fun b => !hasSuffixB b.name compressSuffix)).map
        (fun b => b.name))
    else []
  (aged.1 ++ counted.1, forCompress)

/- ### One sweep pass under failure oracles

   sweep() deletes every file of the removal list, reporting each failed
   os.Remove to the error handler and continuing; it then compresses the
   compression list in order, and the first failing compression is
   reported and makes the whole pass return.  removeFails / compressFails
   say which paths the filesystem fails on. -/

/-- The removal loop: the reported failures, every entry attempted. -/
def removeLoop (fails : List Char → Bool) : List (List Char) → List (List Char)
  | [] => []
  | r :: rest => if fails r then r :: removeLoop fails rest else removeLoop fails rest

/-- The compression loop: returns the successfully compressed files and
    the failure that ended the pass, if any. -/
def compressLoop (fails : List Char → Bool) :
    List (List Char) → List (List Char) × Option (List Char)
  | [] => ([], none)
  | f :: rest =>
    if fails f then ([], some f)
    else
      let p := compressLoop fails rest
      (f :: p.1, p.2)

def sweepPass (removeFails compressFails : List Char → Bool)
    (forRemove forCompress : List (List Char)) :
    List (List Char) × (List (List Char) × Option (List Char)) :=
  (removeLoop removeFails forRemove, compressLoop compressFails forCompress)

/- ### The compressor

   Compress / finish of the source, with a success oracle for each
   filesystem and stream operation.  The error list models the
   c.errors multierror: the source appends with
   multierror.Append(c.errors, e) on the Compress paths, but on the
   finish paths (and the gzip-close path) it calls
   multierror.Append(e) without the accumulator, which REPLACES the
   accumulated list by the one new error; the model reproduces that
   exactly. -/

inductive CErr where
  | openSrc
  | createDst
  | copyFail
  | gzClose
  | closeSrc
  | closeDst
  | removeFail
deriving DecidableEq, Repr

inductive RTar where
  | srcFile
  | dstFile
deriving DecidableEq

structure CompressEnv where
  srcExists : Bool
  dstCreateOk : Bool
  copyOk : Bool
  gzCloseOk : Bool
  srcCloseOk : Bool
  dstCloseOk : Bool
  removeOk : Bool
deriving DecidableEq

structure CompressResult where
  errs : List CErr
  srcExistsAfter : Bool
  dstExistsAfter : Bool
  dstWasCreated : Bool
deriving DecidableEq

/-- finish(): close whichever handles are open (unconditionally, in
    order), then remove fileForRemove if set; each failure replaces the
    error list (the Append-without-accumulator slip of the source). -/
def finishRun (env : CompressEnv) (srcOpen dstOpen : Bool) (errs0 : List CErr)
    (ffr : Option RTar) (srcEx dstEx dstCreated : Bool) : CompressResult :=
  let e1 := if srcOpen && !env.srcCloseOk then [CErr.closeSrc] else errs0
  let e2 := if dstOpen && !env.dstCloseOk then [CErr.closeDst] else e1
  match ffr with
  | none => ⟨e2, srcEx, dstEx, dstCreated⟩
  | some RTar.srcFile =>
    if env.removeOk then ⟨e2, false, dstEx, dstCreated⟩
    else ⟨[CErr.removeFail], srcEx, dstEx, dstCreated⟩
  | some RTar.dstFile =>
    if env.removeOk then ⟨e2, srcEx, false, dstCreated⟩
    else ⟨[CErr.removeFail], srcEx, dstEx, dstCreated⟩

/-- Compress(): open source, create/truncate destination, stream through
    the gzip writer, close the gzip stream; on the copy and gzip-close
    failures the destination is scheduled for removal, on success the
    source is; every path funnels through finish. -/
def compressRun (env : CompressEnv) (dstExisted : Bool) : CompressResult :=
  if !env.srcExists then
    finishRun env false false [CErr.openSrc] none false dstExisted false
  else if !env.dstCreateOk then
    finishRun env true false [CErr.createDst] none true dstExisted false
  else if !env.copyOk then
    finishRun env true true [CErr.copyFail] (some RTar.dstFile) true true true
  else if !env.gzCloseOk then
    finishRun env true true [CErr.gzClose] (some RTar.dstFile) true true true
  else
    finishRun env true true [] (some RTar.srcFile) true true true

/- ### The rotating writer

   The size-accounting state of one Logger: whether a handle is open and
   the tracked size, the size of the file at the active path on disk
   (none when absent), and how many rotations happened.  IO failures
   (stat, open, rename) are not modelled: the claims quantify over
   successful writes; the one modelled failure is the oversized-write
   rejection, returned as none (the source returns 0 and an error and
   touches nothing). -/

structure LogState where
  isOpen : Bool
  size : Nat
  disk : Option Nat
  backups : Nat
deriving DecidableEq

def sizeExceeded (aSize aLimitSize : Nat) : Bool :=
  if aLimitSize = 0 then false else decide (aLimitSize < aSize)

/-- create(): recursively make the directory, open the path with
    O_CREATE|O_WRONLY|O_TRUNC and return size 0. -/
def create (st : LogState) : LogState :=
  { st with isOpen := true, size := 0, disk := some 0 }

/-- rotate(): rename the active file to the timestamped backup name and
    wake the sweeper. -/
def rotate (st : LogState) : LogState :=
  { st with disk := none, backups := st.backups + 1 }

/-- close(): sync and close the handle, reset the tracked size. -/
def close (st : LogState) : LogState :=
  { st with isOpen := false, size := 0 }

/-- openOrCreate(aNeedWrite): stat the path; create when absent; rotate
    then create when the existing size plus the pending write exceeds
    the limit; otherwise open for append tracking the existing size. -/
def openOrCreate (limit : Nat) (st : LogState) (needWrite : Nat) : LogState :=
  match st.disk with
  | none => create st
  | some cur =>
    if sizeExceeded (needWrite + cur) limit then create (rotate st)
    else { st with isOpen := true, size := cur }

/-- Write(p): reject when the write alone exceeds the limit; lazily
    open or create; close+rotate+create when the tracked size plus the
    write would exceed the limit; append and account. -/
def Write (limit : Nat) (st : LogState) (n : Nat) : LogState × Option Nat :=
  if sizeExceeded n limit then (st, none)
  else
    let st1 := if st.isOpen then st else openOrCreate limit st n
    let st2 :=
      if sizeExceeded (st1.size + n) limit then create (rotate (close st1)) else st1
    ({ st2 with size := st2.size + n, disk := st2.disk.map (· + n) }, some n)

def writeAll (limit : Nat) (st : LogState) : List Nat → LogState
  | [] => st
  | n :: rest => writeAll limit (Write limit st n).1 rest

/- ### The sweep trigger protocol

   runSweeping reads the sweepings flag and spawns a sweep goroutine
   when it is 0 (and any retention policy is active); the flag is only
   set to 1 by the spawned goroutine itself when it starts executing,
   and cleared when it finishes.  States count goroutines spawned but
   not yet started (pending) and started but not finished (running). -/

structure SweepSys where
  flag : Bool
  pending : Nat
  running : Nat
deriving DecidableEq

inductive SweepStep (policy : Bool) : SweepSys → SweepSys → Prop where
  | trigger (s : SweepSys) : policy = true → s.flag = false →
      SweepStep policy s ⟨s.flag, s.pending + 1, s.running⟩
  | start (f : Bool) (p r : Nat) :
      SweepStep policy ⟨f, p + 1, r⟩ ⟨true, p, r + 1⟩
  | stop (f : Bool) (p r : Nat) :
      SweepStep policy ⟨f, p, r + 1⟩ ⟨false, p, r⟩

def SweepReach (policy : Bool) : SweepSys → SweepSys → Prop :=
  Relation.ReflTransGen (SweepStep policy)

/- ### Writer theorems -/

theorem sizeExceeded_eq_false_iff {m limit : Nat} (hl : 0 < limit) :
    sizeExceeded m limit = false ↔ m ≤ limit := by
  unfold sizeExceeded
  split
  · omega
  · simp

theorem sizeExceeded_eq_true_iff (m limit : Nat) :
    sizeExceeded m limit = true ↔ limit ≠ 0 ∧ limit < m := by
  unfold sizeExceeded
  split
  · simp; omega
  · simp; omega

theorem write_step (limit : Nat) (hl : 0 < limit) (st : LogState) (n : Nat) (hn : n ≤ limit) :
    (Write limit st n).2 = some n ∧ (Write limit st n).1.size ≤ limit := by
  unfold Write
  rw [(sizeExceeded_eq_false_iff hl).mpr hn]
  set st1 := if st.isOpen then st else openOrCreate limit st n with hst1
  cases hse : sizeExceeded (st1.size + n) limit with
  | true => simp [hse, create, rotate, close]; omega
  | false =>
    have hle : st1.size + n ≤ limit := (sizeExceeded_eq_false_iff hl).mp hse
    simp [hse]
    omega

def stEmpty : LogState := ⟨false, 0, none, 0⟩

/-- C1: with a positive size limit L, any write of length at most L
    succeeds and leaves the tracked size at most L; a write that would
    push an open file over L rotates first and lands in a fresh file;
    opening a pre-existing file whose size plus the pending write would
    exceed L likewise rotates first; and along any sequence of such
    writes the tracked size after every write stays at most L. -/
theorem Write_size_invariant (limit : Nat) (hl : 0 < limit) :
    (∀ st n, n ≤ limit →
      (Write limit st n).2 = some n ∧ (Write limit st n).1.size ≤ limit) ∧
    (∀ st n, n ≤ limit → st.isOpen = true → sizeExceeded (st.size + n) limit = true →
      (Write limit st n).1.size = n ∧ (Write limit st n).1.backups = st.backups + 1) ∧
    (∀ st n cur, n ≤ limit → st.isOpen = false → st.disk = some cur →
      sizeExceeded (n + cur) limit = true →
      (Write limit st n).1.size = n ∧ (Write limit st n).1.backups = st.backups + 1) ∧
    (∀ ws st, (∀ w ∈ ws, w ≤ limit) → ws ≠ [] →
      (writeAll limit st ws).size ≤ limit) := by
  refine ⟨fun st n hn => write_step limit hl st n hn, ?_, ?_, ?_⟩
  · intro st n hn hopen hcross
    unfold Write
    rw [(sizeExceeded_eq_false_iff hl).mpr hn]
    simp [hopen, hcross, create, rotate, close]
  · intro st n cur hn hclosed hdisk hcross
    unfold Write
    rw [(sizeExceeded_eq_false_iff hl).mpr hn]
    have hoc : openOrCreate limit st n = create (rotate st) := by
      unfold openOrCreate
      rw [hdisk]
      simp [hcross]
    simp only [hclosed, Bool.false_eq_true, if_false, hoc]
    have hzn : sizeExceeded n limit = false := (sizeExceeded_eq_false_iff hl).mpr hn
    simp [hzn, create, rotate]
  · intro ws
    induction ws with
    | nil => intro st h hne; exact absurd rfl hne
    | cons n rest ih =>
      intro st h _
      cases rest with
      | nil =>
        simp only [writeAll]
        exact (write_step limit hl st n (h n (by simp))).2
      | cons m rest2 =>
        simp only [writeAll]
        have : writeAll limit (Write limit st n).1 (m :: rest2) =
            writeAll limit ((Write limit (Write limit st n).1 m).1) rest2 := rfl
        exact ih (Write limit st n).1 (fun w hw => h w (by simp [hw])) (by simp)

/-- Witness for C1 at limit 5, writing 3 bytes from the empty state. -/
theorem Write_size_invariant_witness :
    (0 : Nat) < 5 ∧ (Write 5 stEmpty 3).2 = some 3 ∧ (Write 5 stEmpty 3).1.size ≤ 5 :=
  ⟨by decide, ((Write_size_invariant 5 (by decide)).1 stEmpty 3 (by decide)).1,
    ((Write_size_invariant 5 (by decide)).1 stEmpty 3 (by decide)).2⟩

/-- C2: a write longer than a positive limit is rejected outright: zero
    bytes are reported (none models the (0, error) return), the state is
    unchanged (in particular no file is created when none existed); with
    limit 0 no write is ever rejected for size. -/
theorem Write_oversized (limit : Nat) (st : LogState) (n : Nat) :
    (limit ≠ 0 → limit < n → Write limit st n = (st, none)) ∧
    (Write 0 st n).2 = some n := by
  constructor
  · intro h0 hn
    unfold Write
    have ht : sizeExceeded n limit = true := (sizeExceeded_eq_true_iff n limit).mpr ⟨h0, hn⟩
    simp [ht]
  · have h1 : ∀ m, sizeExceeded m 0 = false := fun m => rfl
    unfold Write
    simp [h1]

/-- Witness for C2: limit 3 rejects a 9-byte write untouched; limit 0
    accepts it. -/
theorem Write_oversized_witness :
    Write 3 stEmpty 9 = (stEmpty, none) ∧ (Write 0 stEmpty 9).2 = some 9 :=
  ⟨(Write_oversized 3 stEmpty 9).1 (by decide) (by decide),
    (Write_oversized 0 stEmpty 9).2⟩

/- ### Sweep-candidate theorems -/

theorem ageLoop_eq (cutoff : Nat) (l : List BackupInfo) :
    ageLoop cutoff l =
      ((l.takeWhile (fun b => decide (tsKey b.timestamp < cutoff))).map (fun b => b.name),
        l.dropWhile (fun b => decide (tsKey b.timestamp < cutoff))) := by
  induction l with
  | nil => rfl
  | cons b rest ih =>
    unfold ageLoop
    by_cases h : tsKey b.timestamp < cutoff
    · simp [h, ih, List.takeWhile_cons, List.dropWhile_cons]
    · simp [h, List.takeWhile_cons, List.dropWhile_cons]

theorem countLoop_eq (c : Nat) (l : List BackupInfo) :
    countLoop c l =
      ((l.take (l.length - c)).map (fun b => b.name), l.drop (l.length - c)) := by
  induction l with
  | nil => simp [countLoop]
  | cons b rest ih =>
    unfold countLoop
    by_cases h : c < rest.length + 1
    · have hk : rest.length + 1 - c = (rest.length - c) + 1 := by omega
      simp [h, ih, hk, List.take_succ_cons, List.drop_succ_cons]
    · have hk : rest.length + 1 - c = 0 := by omega
      simp [h, hk]

/-- C3: one sweep-candidate pass, characterized: with a positive age
    limit the maximal run of backups strictly older than the cutoff at
    the oldest end is marked for removal; with a positive count limit
    the oldest excess beyond the limit of what remains is marked for
    removal; with compression on, every surviving backup whose name
    lacks the compressed suffix is marked for compression; nothing else
    is marked. -/
theorem collectFilesForSweep_spec (d c : Nat) (z : Bool) (cutoff : Nat)
    (bs : List BackupInfo) :
    collectFilesForSweep d c z cutoff bs =
      (let old := fun b : BackupInfo => decide (tsKey b.timestamp < cutoff)
       let oldest := bs.reverse
       let aged := if 0 < d then oldest.takeWhile old else []
       let kept := if 0 < d then oldest.dropWhile old else oldest
       let excess := if 0 < c then (kept.take (kept.length - c)).map (fun b => b.name) else []
       let surv := if 0 < c then kept.drop (kept.length - c) else kept
       (aged.map (fun b => b.name) ++ excess,
        if z then
          (surv.reverse.filter (fun b => !hasSuffixB b.name compressSuffix)).map
            (fun b => b.name)
        else [])) := by
  unfold collectFilesForSweep
  simp only [ageLoop_eq, countLoop_eq]
  by_cases hd : 0 < d <;> by_cases hc : 0 < c <;> simp [hd, hc]

/- ### Sweep-pass failure-handling theorems -/

theorem removeLoop_eq_filter (p : List Char → Bool) (l : List (List Char)) :
    removeLoop p l = l.filter p := by
  induction l with
  | nil => rfl
  | cons r rest ih =>
    unfold removeLoop
    by_cases h : p r
    · simp [h, ih, List.filter_cons]
    · simp [h, ih, List.filter_cons]

theorem compressLoop_eq (p : List Char → Bool) (l : List (List Char)) :
    compressLoop p l =
      (l.takeWhile (fun f => !p f), (l.dropWhile (fun f => !p f)).head?) := by
  induction l with
  | nil => rfl
  | cons f rest ih =>
    unfold compressLoop
    by_cases h : p f
    · simp [h, List.takeWhile_cons, List.dropWhile_cons]
    · simp [h, ih, List.takeWhile_cons, List.dropWhile_cons]

/-- C4: in one sweep pass every failing deletion is reported (the
    reported removal failures are exactly the failing entries, in order,
    independent of the compressions), while compression stops at the
    first failure: exactly the files before the first failing one are
    compressed, and the reported compression error is that first
    failure. -/
theorem sweepPass_spec (rf cf : List Char → Bool) (rs cs : List (List Char)) :
    sweepPass rf cf rs cs =
      (rs.filter rf,
        (cs.takeWhile (fun f => !cf f), (cs.dropWhile (fun f => !cf f)).head?)) := by
  unfold sweepPass
  rw [removeLoop_eq_filter, compressLoop_eq]

/- ### Compressor theorems -/

/-- C7: the cleanup postconditions of Compress: an absent source fails
    without creating the destination or removing anything; a failing
    copy or a failing gzip finalize removes the (created) destination
    and leaves the source; success removes the source and leaves the
    destination. -/
theorem compressRun_cleanup (env : CompressEnv) (dstExisted : Bool) :
    (env.srcExists = false →
      (compressRun env dstExisted).errs ≠ [] ∧
      (compressRun env dstExisted).dstWasCreated = false ∧
      (compressRun env dstExisted).dstExistsAfter = dstExisted) ∧
    (env.srcExists = true → env.dstCreateOk = true → env.copyOk = false →
      env.removeOk = true →
      (compressRun env dstExisted).errs ≠ [] ∧
      (compressRun env dstExisted).dstExistsAfter = false ∧
      (compressRun env dstExisted).srcExistsAfter = true) ∧
    (env.srcExists = true → env.dstCreateOk = true → env.copyOk = true →
      env.gzCloseOk = false → env.removeOk = true →
      (compressRun env dstExisted).errs ≠ [] ∧
      (compressRun env dstExisted).dstExistsAfter = false ∧
      (compressRun env dstExisted).srcExistsAfter = true) ∧
    (env.srcExists = true → env.dstCreateOk = true → env.copyOk = true →
      env.gzCloseOk = true → env.removeOk = true →
      (compressRun env dstExisted).srcExistsAfter = false ∧
      (compressRun env dstExisted).dstExistsAfter = true) := by
  obtain ⟨s1, s2, s3, s4, s5, s6, s7⟩ := env
  cases s1 <;> cases s2 <;> cases s3 <;> cases s4 <;> cases s5 <;> cases s6 <;> cases s7 <;>
    cases dstExisted <;> exact ⟨by decide, by decide, by decide, by decide⟩

def envAllOk : CompressEnv := ⟨true, true, true, true, true, true, true⟩

def envCopyFailRm : CompressEnv := ⟨true, true, false, true, true, true, true⟩

/-- Witness for C7: a fully successful run removes the source and keeps
    the destination; a failing copy removes the destination and keeps
    the source. -/
theorem compressRun_cleanup_witness :
    ((compressRun envAllOk true).srcExistsAfter = false ∧
      (compressRun envAllOk true).dstExistsAfter = true) ∧
    ((compressRun envCopyFailRm true).errs ≠ [] ∧
      (compressRun envCopyFailRm true).dstExistsAfter = false ∧
      (compressRun envCopyFailRm true).srcExistsAfter = true) :=
  ⟨(compressRun_cleanup envAllOk true).2.2.2 rfl rfl rfl rfl rfl,
    (compressRun_cleanup envCopyFailRm true).2.1 rfl rfl rfl rfl⟩

/-- The run of C8's failing input: the copy fails (the primary error)
    and then closing the source handle also fails. -/
def envCopySrcCloseFail : CompressEnv := ⟨true, true, false, true, false, true, true⟩

/-- C8 (code bug): when the copy fails and closing the source also
    fails, finish() replaces the accumulated error list (Append is
    called without the accumulator), so the result carries only the
    close error and the primary copy error is hidden — contradicting
    the aggregate-never-hides-the-primary contract.  With the same copy
    failure but a successful close the primary is reported, showing the
    close failure replaced it rather than joining it. -/
theorem compress_append_slip :
    (compressRun envCopySrcCloseFail true).errs = [CErr.closeSrc] ∧
    (compressRun envCopyFailRm true).errs = [CErr.copyFail] := by
  decide

/- ### Sweep-trigger race theorem -/

/-- With no retention policy active a trigger never fires, so from the
    initial state nothing but the initial state is reachable. -/
theorem sweep_skip_no_policy (s : SweepSys) (hs : SweepReach false ⟨false, 0, 0⟩ s) :
    s = ⟨false, 0, 0⟩ := by
  induction hs with
  | refl => rfl
  | tail hb step ih =>
    subst ih
    cases step with
    | trigger s hp hf => exact absurd hp (by simp)

/-- C9 (code bug): the sweepings flag is set only by the spawned
    goroutine, so two triggers that both observe the flag still clear
    can spawn two sweeps that run concurrently: a state with two
    running sweeps is reachable from the idle initial state. -/
theorem sweep_guard_race :
    SweepReach true ⟨false, 0, 0⟩ ⟨true, 0, 2⟩ ∧
    (⟨true, 0, 2⟩ : SweepSys).running = 2 := by
  constructor
  · have t1 : SweepStep true ⟨false, 0, 0⟩ ⟨false, 1, 0⟩ :=
      SweepStep.trigger ⟨false, 0, 0⟩ rfl rfl
    have t2 : SweepStep true ⟨false, 1, 0⟩ ⟨false, 2, 0⟩ :=
      SweepStep.trigger ⟨false, 1, 0⟩ rfl rfl
    have t3 : SweepStep true ⟨false, 2, 0⟩ ⟨true, 1, 1⟩ := SweepStep.start false 1 0
    have t4 : SweepStep true ⟨true, 1, 1⟩ ⟨true, 0, 2⟩ := SweepStep.start true 0 1
    exact Relation.ReflTransGen.head t1 (Relation.ReflTransGen.head t2
      (Relation.ReflTransGen.head t3 (Relation.ReflTransGen.single t4)))
  · rfl

/- ### Round-trip witness data -/

def preW : List Char := ['a', '.']

def sufW : List Char := ['.', 'l', 'o', 'g']

def tsW : Timestamp := ⟨2020, 1, 2, 12, 30, 45, 123⟩

/-- Witness for C5 at prefix a., suffix .log and timestamp
    2020-01-02 12:30:45.123. -/
theorem timeFormFilename_roundtrip_witness :
    ValidTs tsW ∧
    timeFormFilename (preW ++ formatBackupTime tsW ++ sufW) preW sufW = some tsW :=
  ⟨by decide, timeFormFilename_roundtrip preW sufW tsW (by decide)⟩

/- ### The active file never matches the backup pattern -/

theorem fileExt_length_le (cs : List Char) : (fileExt cs).length ≤ cs.length := by
  unfold fileExt
  split
  · next h =>
    have hmem : '.' ∈ cs.reverse := by simpa using h
    have hdw : cs.reverse.dropWhile (fun c => c != '.') ≠ [] := by
      intro hnil
      rw [List.dropWhile_eq_nil_iff] at hnil
      have := hnil '.' hmem
      simp at this
    have hsum : (cs.reverse.takeWhile (fun c => c != '.')).length +
        (cs.reverse.dropWhile (fun c => c != '.')).length = cs.length := by
      have h2 := congrArg List.length
        (List.takeWhile_append_dropWhile (p := fun c => c != '.') (l := cs.reverse))
      rw [List.length_append, List.length_reverse] at h2
      exact h2
    have hpos : 0 < (cs.reverse.dropWhile (fun c => c != '.')).length :=
      List.length_pos.mpr hdw
    simp only [List.length_cons, List.length_reverse]
    omega
  · simp

theorem splitFilename_lengths (fname : List Char) :
    ((splitFilename fname).1).length = fname.length - (fileExt fname).length + 1 ∧
    ((splitFilename fname).2).length = (fileExt fname).length := by
  have he := fileExt_length_le fname
  unfold splitFilename
  constructor
  · simp [List.length_append, List.length_take]
  · rfl

/-- The active basename never decodes against its own split prefix and
    any extension of its own split suffix: the middle segment would have
    negative length (it is the suffix length minus itself minus the
    extra minus one), never the layout's width. -/
theorem decode_active_none (fname extra : List Char) :
    timeFormFilename fname ((splitFilename fname).1) ((splitFilename fname).2 ++ extra) =
      none := by
  obtain ⟨hp, hs⟩ := splitFilename_lengths fname
  have he := fileExt_length_le fname
  unfold timeFormFilename
  by_cases h1 : fname.take ((splitFilename fname).1).length = (splitFilename fname).1
  · by_cases h2 : fname.drop (fname.length - ((splitFilename fname).2 ++ extra).length) =
        (splitFilename fname).2 ++ extra
    · rw [if_pos h1, if_pos h2, if_neg ?_]
      intro hcontra
      have hbl : backupTimeFormat.length = 18 := rfl
      rw [hbl] at hcontra
      rw [List.length_append, hp, hs] at hcontra
      omega
    · rw [if_pos h1, if_neg h2]
  · rw [if_neg h1]

theorem mem_scanCandidates {aPre aSuf : List Char} {entries : List DirEntry}
    {b : BackupInfo} (h : b ∈ scanCandidates aPre aSuf entries) :
    (timeFormFilename b.name aPre aSuf).isSome = true ∨
    (timeFormFilename b.name aPre (aSuf ++ compressSuffix)).isSome = true := by
  induction entries with
  | nil => simp [scanCandidates] at h
  | cons e rest ih =>
    unfold scanCandidates at h
    by_cases hd : e.isDir
    · rw [if_pos hd] at h
      exact ih h
    · rw [if_neg hd] at h
      split at h
      · next ts hm =>
        rcases List.mem_cons.mp h with hb | hb
        · subst hb; left; simp [hm]
        · exact ih hb
      · next hm =>
        split at h
        · next ts hm2 =>
          rcases List.mem_cons.mp h with hb | hb
          · subst hb; right; simp [hm2]
          · exact ih hb
        · next hm2 => exact ih h

theorem ageLoop_fst_sub (cutoff : Nat) (l : List BackupInfo) :
    ∀ nm ∈ (ageLoop cutoff l).1, ∃ b ∈ l, nm = b.name := by
  rw [ageLoop_eq]
  intro nm h
  rcases List.mem_map.mp h with ⟨b, hb, e⟩
  exact ⟨b, List.takeWhile_subset _ hb, e.symm⟩

theorem ageLoop_snd_sub (cutoff : Nat) (l : List BackupInfo) :
    (ageLoop cutoff l).2 ⊆ l := by
  rw [ageLoop_eq]
  exact List.dropWhile_subset _

theorem countLoop_fst_sub (c : Nat) (l : List BackupInfo) :
    ∀ nm ∈ (countLoop c l).1, ∃ b ∈ l, nm = b.name := by
  rw [countLoop_eq]
  intro nm h
  rcases List.mem_map.mp h with ⟨b, hb, e⟩
  exact ⟨b, List.take_subset _ _ hb, e.symm⟩

theorem countLoop_snd_sub (c : Nat) (l : List BackupInfo) :
    (countLoop c l).2 ⊆ l := by
  rw [countLoop_eq]
  exact List.drop_subset _ _

/-- Every name marked by a sweep-candidate pass is the name of one of
    the backups it was given. -/
theorem mem_collect_names {d c : Nat} {z : Bool} {cutoff : Nat} {bs : List BackupInfo}
    {nm : List Char}
    (h : nm ∈ (collectFilesForSweep d c z cutoff bs).1 ∨
      nm ∈ (collectFilesForSweep d c z cutoff bs).2) :
    ∃ b, b ∈ bs ∧ nm = b.name := by
  simp only [collectFilesForSweep] at h
  set oldest := bs.reverse with ho
  set aged := if 0 < d then ageLoop cutoff oldest else ([], oldest) with ha
  set counted := if 0 < c then countLoop c aged.2 else ([], aged.2) with hcnt
  have haged1 : ∀ x ∈ aged.1, ∃ b ∈ oldest, x = b.name := by
    rw [ha]; split
    · exact ageLoop_fst_sub cutoff oldest
    · intro x hx; simp at hx
  have haged2 : aged.2 ⊆ oldest := by
    rw [ha]; split
    · exact ageLoop_snd_sub cutoff oldest
    · exact fun x hx => hx
  have hcnt1 : ∀ x ∈ counted.1, ∃ b ∈ aged.2, x = b.name := by
    rw [hcnt]; split
    · exact countLoop_fst_sub c aged.2
    · intro x hx; simp at hx
  have hcnt2 : counted.2 ⊆ aged.2 := by
    rw [hcnt]; split
    · exact countLoop_snd_sub c aged.2
    · exact fun x hx => hx
  rcases h with h | h
  · rw [List.mem_append] at h
    rcases h with h | h
    · rcases haged1 nm h with ⟨b, hb, e⟩
      exact ⟨b, List.mem_reverse.mp hb, e⟩
    · rcases hcnt1 nm h with ⟨b, hb, e⟩
      exact ⟨b, List.mem_reverse.mp (haged2 hb), e⟩
  · split at h
    · rcases List.mem_map.mp h with ⟨b, hbf, e⟩
      have hbrev : b ∈ counted.2.reverse := (List.mem_filter.mp hbf).1
      have hb2 : b ∈ counted.2 := List.mem_reverse.mp hbrev
      exact ⟨b, List.mem_reverse.mp (haged2 (hcnt2 hb2)), e.symm⟩
    · simp at h

/-- C10: the active file's basename never decodes as a backup: its
    middle segment between the split prefix and suffix has length -1
    (-4 against the compressed pattern), never the layout's width, so
    decoding fails against both patterns, the scanner never returns the
    active file, and no sweep-candidate pass ever marks it for removal
    or compression. -/
theorem active_file_never_backup (fname : List Char) :
    timeFormFilename fname (splitFilename fname).1 (splitFilename fname).2 = none ∧
    timeFormFilename fname (splitFilename fname).1
      ((splitFilename fname).2 ++ compressSuffix) = none ∧
    ((fname.length : Int) - (((splitFilename fname).2).length : Int) -
      (((splitFilename fname).1).length : Int) = -1) ∧
    (∀ entries, ∀ b ∈ scanCandidates (splitFilename fname).1 (splitFilename fname).2
      entries, b.name ≠ fname) ∧
    (∀ entries d c z cutoff nm,
      (nm ∈ (collectFilesForSweep d c z cutoff
          (scanCandidates (splitFilename fname).1 (splitFilename fname).2 entries)).1 ∨
        nm ∈ (collectFilesForSweep d c z cutoff
          (scanCandidates (splitFilename fname).1 (splitFilename fname).2 entries)).2) →
      nm ≠ fname) := by
  have h1 : timeFormFilename fname (splitFilename fname).1 (splitFilename fname).2 =
      none := by
    have := decode_active_none fname []
    rwa [List.append_nil] at this
  have h2 : timeFormFilename fname (splitFilename fname).1
      ((splitFilename fname).2 ++ compressSuffix) = none :=
    decode_active_none fname compressSuffix
  have h4 : ∀ entries, ∀ b ∈ scanCandidates (splitFilename fname).1
      (splitFilename fname).2 entries, b.name ≠ fname := by
    intro entries b hb heq
    rcases mem_scanCandidates hb with hs | hs
    · rw [heq, h1] at hs; simp at hs
    · rw [heq, h2] at hs; simp at hs
  refine ⟨h1, h2, ?_, h4, ?_⟩
  · obtain ⟨hp, hs⟩ := splitFilename_lengths fname
    have he := fileExt_length_le fname
    rw [hp, hs]
    omega
  · intro entries d c z cutoff nm hnm heq
    rcases mem_collect_names hnm with ⟨b, hbmem, e⟩
    exact h4 entries b hbmem (by rw [← e, heq])

/- ### Concrete scanner data (witnesses and the tie counterexample) -/

def tsChars : List Char :=
  ['2', '0', '2', '0', '0', '1', '0', '1', '1', '2', '0', '0', '0', '0', '.', '0', '0', '0']

def logW : List Char := ['a', '.', 'l', 'o', 'g']

def plainBackupName : List Char := ['a', '.'] ++ tsChars ++ ['.', 'l', 'o', 'g']

def gzBackupName : List Char := plainBackupName ++ ['.', 'g', 'z']

def tsW2 : Timestamp := ⟨2020, 1, 1, 12, 0, 0, 0⟩

def entriesW : List DirEntry := [⟨plainBackupName, false⟩, ⟨gzBackupName, false⟩]

def resW : List BackupInfo := [⟨plainBackupName, tsW2⟩, ⟨gzBackupName, tsW2⟩]

def resBad : List BackupInfo := [⟨gzBackupName, tsW2⟩, ⟨plainBackupName, tsW2⟩]

/-- Witness for C10: a decodable backup name is in the scan of a
    directory holding it, and it differs from the active name a.log. -/
theorem active_file_never_backup_witness :
    (⟨plainBackupName, tsW2⟩ : BackupInfo) ∈
      scanCandidates (splitFilename logW).1 (splitFilename logW).2 entriesW ∧
    (⟨plainBackupName, tsW2⟩ : BackupInfo).name ≠ logW :=
  ⟨by decide,
    (active_file_never_backup logW).2.2.2.1 entriesW ⟨plainBackupName, tsW2⟩ (by decide)⟩

/- ### Scanner ordering theorems -/

/-- C6 (amended part): any result the scanner can return is a sorted
    permutation of the decoded candidates: every element's key is at
    most the head's, and keys are nonincreasing in the index. -/
theorem filterBackups_sorted (logBasename : List Char) (entries : List DirEntry)
    (res : List BackupInfo) (h : FilterBackupsRes logBasename entries res) :
    (∀ b ∈ res, ∀ hd ∈ res.head?, tsKey b.timestamp ≤ tsKey hd.timestamp) ∧
    (∀ i j : Fin res.length, i ≤ j →
      tsKey (res.get j).timestamp ≤ tsKey (res.get i).timestamp) := by
  obtain ⟨hperm, hsort⟩ := h
  constructor
  · intro b hb hd hhd
    cases res with
    | nil => simp at hhd
    | cons x tl =>
      have hx : hd = x := by simpa using hhd.symm
      subst hx
      rcases List.mem_cons.mp hb with rfl | hbtl
      · exact le_refl _
      · exact (List.pairwise_cons.mp hsort).1 b hbtl
  · intro i j hij
    rcases lt_or_eq_of_le hij with hlt | heq
    · exact (List.pairwise_iff_get.mp hsort) i j hlt
    · rw [heq]

/-- Witness for C6's amended theorem: the discovery-ordered candidate
    list itself is an admissible result, and the tie has key at most the
    head's. -/
theorem filterBackups_sorted_witness :
    tsKey ((⟨gzBackupName, tsW2⟩ : BackupInfo)).timestamp ≤
      tsKey ((⟨plainBackupName, tsW2⟩ : BackupInfo)).timestamp :=
  (filterBackups_sorted logW entriesW resW
      ⟨by
        have he : scanCandidates (splitFilename logW).1 (splitFilename logW).2 entriesW =
            resW := by decide
        rw [he],
        by unfold SortedNewestFirst; decide⟩).1
    (⟨gzBackupName, tsW2⟩ : BackupInfo) (by decide)
    (⟨plainBackupName, tsW2⟩ : BackupInfo) (by decide)

/-- C6 counterexample: a permutation of the two equal-timestamp backups
    in the opposite of discovery order is also sorted, hence an
    admissible result of the unstable standard sort: the tie-broken-by-
    discovery-order clause does not hold of the code. -/
theorem filterBackups_tie_counterexample :
    FilterBackupsRes logW entriesW resBad ∧
    resBad.map BackupInfo.timestamp = [tsW2, tsW2] ∧
    resBad.map BackupInfo.name ≠
      (scanCandidates (splitFilename logW).1 (splitFilename logW).2 entriesW).map
        BackupInfo.name := by
  refine ⟨⟨?_, ?_⟩, ?_, ?_⟩
  · have he : scanCandidates (splitFilename logW).1 (splitFilename logW).2 entriesW =
        resW := by decide
    rw [he]
    exact List.Perm.swap (⟨plainBackupName, tsW2⟩ : BackupInfo)
      (⟨gzBackupName, tsW2⟩ : BackupInfo) []
  · unfold SortedNewestFirst; decide
  · decide
  · decide

end RollingLog
